import Mathlib

/-!
Verification of the chartpress version-identifier engine, base-version
validator, version fixer and structured value patcher, as implemented in
`chartpress.py`.

The embedding is shallow: the git oracle results (latest tag, commit counts,
commit hashes) that the Python code obtains from `git` subprocesses are passed
in as explicit arguments, and the regular expressions of the source are
translated into executable character-list scanners.  Character classes are the
ASCII classes of the regexes (the source's `re` module would additionally
accept non-ASCII Unicode digits in `\d`; all data handled by chartpress is
ASCII, as the spec notes).
-/

/-! ## The SemVer 2 regular expression (`_semver2` in chartpress.py)

The regex is
`^(0|[1-9]\d*)\.(0|[1-9]\d*)\.(0|[1-9]\d*)`
`(?:-((?:0|[1-9]\d*|\d*[a-zA-Z-][0-9a-zA-Z-]*)(?:\.(?:0|[1-9]\d*|\d*[a-zA-Z-][0-9a-zA-Z-]*))*))?`
`(?:\+([0-9a-zA-Z-]+(?:\.[0-9a-zA-Z-]+)*))?$`
with named groups major/minor/patch/prerelease/buildmetadata.  Because the
core may contain only digits and dots, the prerelease only characters from
`[0-9a-zA-Z-.]` and the build only characters from `[0-9a-zA-Z-.]`, a full
match splits the input at the first `+` (start of build metadata) and then at
the first `-` (start of the prerelease); the scanner below does exactly that.
-/

/-- Character class `[a-zA-Z-]` of the semver regex. -/
def isAlphaHyphen (c : Char) : Bool :=
  c.isAlpha || c = '-'

/-- Character class `[0-9a-zA-Z-]` of the semver regex. -/
def isIdentChar (c : Char) : Bool :=
  c.isAlphanum || c = '-'

/-- Numeric identifier `0|[1-9]\d*`: digits, no leading zero unless "0". -/
def isNumericIdentL (l : List Char) : Bool :=
  match l with
  | [] => false
  | c :: rest => (('1' ≤ c && c ≤ '9') || (c = '0' && rest = [])) && rest.all Char.isDigit

/-- Prerelease identifier `0|[1-9]\d*|\d*[a-zA-Z-][0-9a-zA-Z-]*`: either a
numeric identifier without leading zero, or a nonempty word over
`[0-9a-zA-Z-]` containing at least one character of `[a-zA-Z-]`. -/
def isPreIdent (l : List Char) : Bool :=
  isNumericIdentL l || (!l.isEmpty && l.all isIdentChar && l.any isAlphaHyphen)

/-- Build-metadata identifier `[0-9a-zA-Z-]+`. -/
def isBuildIdent (l : List Char) : Bool :=
  !l.isEmpty && l.all isIdentChar

/-- Split a character list at the first occurrence of `c`: returns the part
before it and, if `c` occurs, the part after it. -/
def splitFirst (c : Char) : List Char → List Char × Option (List Char)
  | [] => ([], none)
  | a :: rest =>
    if a = c then ([], some rest)
    else
      let r := splitFirst c rest
      (a :: r.1, r.2)

/-- Split a character list at every `'.'` (like Python `str.split(".")`):
always returns at least one (possibly empty) component. -/
def splitDots : List Char → List (List Char)
  | [] => [[]]
  | a :: rest =>
    let r := splitDots rest
    if a = '.' then [] :: r
    else
      match r with
      | h :: t => (a :: h) :: t
      | [] => [[a]]

/-- Join components with `'.'`; the left inverse of `splitDots`. -/
def joinDots : List (List Char) → List Char
  | [] => []
  | [c] => c
  | c :: d :: rest => c ++ '.' :: joinDots (d :: rest)

/-- Value of a digit string (most significant first). -/
def digitsToNat (l : List Char) : Nat :=
  l.foldl (fun n c => n * 10 + (c.toNat - '0'.toNat)) 0

/-- Check that the `'.'`-separated components of `l` all satisfy `p`. -/
def dotIdentsOk (l : List Char) (p : List Char → Bool) : Bool :=
  (splitDots l).all p

/-- Parse the `major.minor.patch` core: exactly three numeric identifiers. -/
def parseCore (l : List Char) : Option (Nat × Nat × Nat) :=
  match splitDots l with
  | [x, y, z] =>
    if isNumericIdentL x && isNumericIdentL y && isNumericIdentL z then
      some (digitsToNat x, digitsToNat y, digitsToNat z)
    else none
  | _ => none

/-- The named groups of a full `_semver2` match. -/
structure SemVer where
  major : Nat
  minor : Nat
  patch : Nat
  prerelease : Option String
  build : Option String
  deriving DecidableEq, Repr

/-- Full-match against the `_semver2` regex, returning the named groups. -/
def parseSemver (s : String) : Option SemVer :=
  let sp := splitFirst '+' s.data
  let buildOk :=
    match sp.2 with
    | none => true
    | some b => dotIdentsOk b isBuildIdent
  if buildOk then
    let cp := splitFirst '-' sp.1
    let preOk :=
      match cp.2 with
      | none => true
      | some p => dotIdentsOk p isPreIdent
    if preOk then
      match parseCore cp.1 with
      | some (ma, mi, pa) =>
        some ⟨ma, mi, pa, cp.2.map String.mk, sp.2.map String.mk⟩
      | none => none
    else none
  else none

/-- Boolean full-match, as `_semver2.fullmatch(version)` is used for tests. -/
def matchesSemver2 (s : String) : Bool :=
  (parseSemver s).isSome

/-! ## Version identifier engine -/

/-- Prefix added to start the git info of a prerelease field
(`GIT_PREFIX = "git"` in chartpress.py). -/
def GIT_PREFIX : String := "git"

/-- Full prefix added to non-prerelease versions
(`PRERELEASE_PREFIX = f"0.dev.{GIT_PREFIX}"`). -/
def PRERELEASE_PREFIX : String := "0.dev." ++ GIT_PREFIX

/-- Embedding of `_fix_chart_version(version, strict)`.  A raised
`ValueError` is modelled as `Except.error` carrying the message; the
non-strict fallthrough logs a warning (outside the pure model) and returns
the version unchanged.  The source message text contains an ASCII
apostrophe; the model keeps the identifying part of the message. -/
def _fix_chart_version (version : String) (strict : Bool) : Except String String :=
  if matchesSemver2 version then .ok version
  else if version.data.head? = some 'v' ∧ matchesSemver2 (String.mk version.data.tail) then
    .ok (String.mk version.data.tail)
  else if strict then
    .error ("The version in Chart.yaml " ++ version ++ " does not follow semantic versioning. Helm 3 requires published charts to have strict semantic versions.")
  else .ok version

/-- Embedding of `_get_identifier_from_parts(tag, n_commits, commit, long)`. -/
def _get_identifier_from_parts (tag : String) (n_commits : Nat) (commit : String)
    (long : Bool) : String :=
  if n_commits > 0 || long then
    let pre := if '-' ∈ tag.data then "." ++ GIT_PREFIX else "-" ++ PRERELEASE_PREFIX
    tag ++ pre ++ "." ++ toString n_commits ++ ".h" ++ commit
  else tag

/-- Embedding of `_get_identifier_from_paths(*paths, long, base_version)`.
The git oracle results are passed explicitly: `latest_commit` is
`_get_latest_commit_tagged_or_modifying_paths(*paths)`, `total_commits` is
`_count_commits(latest_commit)` and `tag_and_count` is
`_get_latest_tag_and_count(latest_commit)` (where a `none` tag comes with the
total commit count).  An empty-string tag is falsy in Python, hence the
explicit emptiness test. -/
def _get_identifier_from_paths (latest_commit : String) (total_commits : Nat)
    (tag_and_count : Option String × Nat) (long : Bool)
    (base_version : Option String) : String :=
  let n_commits := total_commits
  let st :=
    match tag_and_count.1 with
    | some t =>
      if t ≠ "" then
        if tag_and_count.2 = 0 then
          (some t, if long then n_commits else 0)
        else
          (some (base_version.getD t), n_commits)
      else (base_version, n_commits)
    | none => (base_version, n_commits)
  _get_identifier_from_parts (st.1.getD "0.0.1-0.dev") st.2 latest_commit long

/-! ## Base version validator -/

/-- The first step of `_check_base_version`: a config version without a `-`
is a stable release and gets the default `-0.dev` appended so that a
prerelease is always produced. -/
def withDefaultPrerelease (b : String) : String :=
  if '-' ∈ b.data then b else b ++ "-0.dev"

/-- Lexicographic strict order on `(major, minor, patch)` triples, as Python
compares the tuples built by `_version_number`. -/
def tripleLtB (a b : Nat × Nat × Nat) : Bool :=
  if a.1 < b.1 then true
  else if a.1 = b.1 then
    if a.2.1 < b.2.1 then true
    else if a.2.1 = b.2.1 then a.2.2 < b.2.2
    else false
  else false

/-- The message of the `ValueError` raised by `_check_base_version` when the
base version does not parse (apostrophes of the source text omitted). -/
def invalidBaseMsg (b : String) : String :=
  "baseVersion: " ++ b ++ " must be a valid semver version (e.g. 1.2.3-0.dev), but does not appear to be valid."

/-- The message of the `ValueError` raised by `_check_base_version` when the
base version does not sort after the latest tag. -/
def sortErrorMsg (b tag : String) : String :=
  "baseVersion " ++ b ++ " is not greater than latest tag " ++ tag ++ ". Please update baseVersion config in chartpress.yaml."

/-- Embedding of `_check_base_version(base_version)`.  The git oracle result
`_get_latest_tag_and_count()` is the explicit argument `tag_and_count`; a
raised `ValueError` is `Except.error`.  `tag.lstrip("v")` strips every
leading `v`; `if tag and count:` skips the ordering check for a `None` tag,
an empty tag, or a zero count.  When the latest tag is not valid semver the
check is skipped after logging a warning (outside the pure model). -/
def _check_base_version (base_version : String) (tag_and_count : Option String × Nat) :
    Except String String :=
  let base_version := withDefaultPrerelease base_version
  match parseSemver base_version with
  | none => .error (invalidBaseMsg base_version)
  | some bv =>
    match tag_and_count with
    | (some tag, count) =>
      if tag ≠ "" ∧ count ≠ 0 then
        match parseSemver (String.mk (tag.data.dropWhile (· = 'v'))) with
        | some tv =>
          if tripleLtB (bv.major, bv.minor, bv.patch) (tv.major, tv.minor, tv.patch) then
            .error (sortErrorMsg base_version tag)
          else if (bv.major, bv.minor, bv.patch) = (tv.major, tv.minor, tv.patch) then
            if tv.prerelease.isSome then .ok base_version
            else .error (sortErrorMsg base_version tag)
          else .ok base_version
        | none => .ok base_version
      else .ok base_version
    | (none, _) => .ok base_version

/-- Render an incremented `(major, minor, patch)` triple as a version string. -/
def tripleToString (t : Nat × Nat × Nat) : String :=
  toString t.1 ++ "." ++ toString t.2.1 ++ "." ++ toString t.2.2

/-- Modelled from the spec: the shorthand resolution of
`_check_or_get_base_version`, which is missing from `src/chartpress.py`
(only `tests/test_helpers.py` calls it; the file under `src/` ships the
plain `_check_base_version` without shorthand support).  Spec 4.2: shorthand
tokens `major | minor | patch` resolve to an auto-incremented numeric triple
derived from the latest tag (incrementing the respective component, zeroing
lower components), then re-enter validation as a concrete version, and the
resolution fails if a shorthand was requested and the latest tag is not
itself valid SemVer2.  When no tag exists at all the engine's default base
`0.0.1` (spec 4.1) re-enters validation instead. -/
def _check_or_get_base_version (base_version : String)
    (tag_and_count : Option String × Nat) : Except String String :=
  if base_version = "major" ∨ base_version = "minor" ∨ base_version = "patch" then
    match tag_and_count.1 with
    | some tag =>
      match parseSemver tag with
      | some tv =>
        let t :=
          if base_version = "major" then (tv.major + 1, 0, 0)
          else if base_version = "minor" then (tv.major, tv.minor + 1, 0)
          else (tv.major, tv.minor, tv.patch + 1)
        _check_base_version (tripleToString t) tag_and_count
      | none =>
        .error ("baseVersion: " ++ base_version ++ " not valid when latest tag " ++ tag ++ " is not semver")
    | none => _check_base_version "0.0.1" tag_and_count
  else _check_base_version base_version tag_and_count

/-! ## Trimming the build suffix (`_suffix_version_pat`, `_trim_version_suffix`)

The pattern is `(.*)\.git\.\d+\.h[a-f0-9]+$` used with `re.match`: anchored at
the start, `.` does not match a newline, and `$` matches at the end of the
string or just before a single final newline.  The greedy `(.*)` makes the
match strip the last possible `.git.<digits>.h<hex>` suffix. -/

/-- Character class `[a-f0-9]` of `_suffix_version_pat`. -/
def isHexLower (c : Char) : Bool :=
  c.isDigit || ('a' ≤ c && c ≤ 'f')

/-- Match `\d+\.h[a-f0-9]+$` (with Python dollar semantics: the hex run may
be followed by one final newline). -/
def suffixTail (s : List Char) : Bool :=
  let ds := s.takeWhile Char.isDigit
  let r1 := s.dropWhile Char.isDigit
  !ds.isEmpty &&
    match r1 with
    | a :: b :: hx =>
      a = '.' && b = 'h' &&
        (let h := hx.takeWhile isHexLower
         let r2 := hx.dropWhile isHexLower
         !h.isEmpty && (r2.isEmpty || r2 = ['\n']))
    | _ => false

/-- Match the rest of the pattern `it\.` then `suffixTail`. -/
def suffixMatch2 (s : List Char) : Bool :=
  match s with
  | c :: d :: e :: rest => c = 'i' && d = 't' && e = '.' && suffixTail rest
  | _ => false

/-- Match `\.git\.\d+\.h[a-f0-9]+$` against the whole of `s`. -/
def suffixMatch (s : List Char) : Bool :=
  match s with
  | a :: b :: rest => a = '.' && b = 'g' && suffixMatch2 rest
  | _ => false

/-- Does `_suffix_version_pat` match `cs` with group 1 of length `i`?  The
greedy `(.*)` consumes no newline. -/
def pyMatchAt (cs : List Char) (i : Nat) : Bool :=
  (cs.take i).all (fun c => c ≠ '\n') && suffixMatch (cs.drop i)

/-- Find the largest `i ≤ bound` at which the pattern matches (the greedy
`(.*)` makes `re.match` pick the largest group 1). -/
def trimFindStart (cs : List Char) : Nat → Option Nat
  | 0 => if pyMatchAt cs 0 then some 0 else none
  | i + 1 => if pyMatchAt cs (i + 1) then some (i + 1) else trimFindStart cs i

/-- Embedding of `_trim_version_suffix(version)`. -/
def _trim_version_suffix (version : String) : String :=
  match trimFindStart version.data version.data.length with
  | some i => String.mk (version.data.take i)
  | none => version

/-! ## Structured value patcher (`_update_values_file_with_modifications`)

The values document is a dynamically shaped tree of mappings, sequences and
scalars, modelled by `YVal` (`num` stands for the other scalar runtime types
a YAML document can hold; the code only distinguishes mappings, strings and
everything else).  Mapping keys are strings, which is what chartpress values
files contain.  Python exceptions (`ValueError` for a malformed modification
value, `KeyError`/`IndexError` for an unresolvable path segment,
`TypeError` for an unsupported node shape, including indexing into a scalar)
are modelled by `PErr`. -/

inductive YVal where
  | str : String → YVal
  | num : Int → YVal
  | map : List (String × YVal) → YVal
  | seq : List YVal → YVal

inductive PErr where
  | valueError : String → PErr
  | keyError : String → PErr
  | indexError : String → PErr
  | typeError : String → PErr
  deriving DecidableEq, Repr

/-- A change-log entry: `field path key` for an updated key of a mapping
node (logged as `Updating values.yaml: path.key: value`), `scalar path
image` for a replaced combined scalar (logged as
`Updating values.yaml: path: image`). -/
inductive LogEntry where
  | field : String → String → LogEntry
  | scalar : String → String → LogEntry
  deriving DecidableEq, Repr

/-- Look a key up in a mapping node (first occurrence; Python dict keys are
unique). -/
def mapGet : List (String × YVal) → String → Option YVal
  | [], _ => none
  | (k, v) :: rest, key => if k = key then some v else mapGet rest key

/-- Set a key in a mapping node: an existing key keeps its position, a new
key is appended, as with a Python dict. -/
def mapSet : List (String × YVal) → String → YVal → List (String × YVal)
  | [], key, x => [(key, x)]
  | (k, v) :: rest, key, x =>
    if k = key then (key, x) :: rest else (k, v) :: mapSet rest key x

/-- Is the value at `o` the scalar string `s`?  This is the comparison
`before != new_value` of the source (a non-string node never equals a
string). -/
def isStrVal (o : Option YVal) (s : String) : Bool :=
  match o with
  | some (.str t) => t = s
  | _ => false

/-- Python `p.isdigit()` for a path segment (ASCII digits). -/
def isDigitSeg (s : String) : Bool :=
  !s.data.isEmpty && s.data.all Char.isDigit

/-- Read one path segment: `mod_obj = mod_obj[p]` after
`p = int(p) if p.isdigit() else p`.  An all-digit segment indexes a
sequence; on a string-keyed mapping an integer key raises `KeyError`, and
(eventually) indexing into a scalar raises a `TypeError`, see the module
comment. -/
def getSeg (v : YVal) (seg : String) : Except PErr YVal :=
  match v with
  | .seq l =>
    if isDigitSeg seg then
      if h : digitsToNat seg.data < l.length then
        .ok (l.get ⟨digitsToNat seg.data, h⟩)
      else .error (.indexError seg)
    else .error (.typeError seg)
  | .map m =>
    if isDigitSeg seg then .error (.keyError seg)
    else
      match mapGet m seg with
      | some x => .ok x
      | none => .error (.keyError seg)
  | .str _ => .error (.typeError seg)
  | .num _ => .error (.typeError seg)

/-- Write one path segment: `container[p] = x`.  A mapping assignment always
succeeds (Python dict item assignment), a sequence assignment needs the
index in range, scalars do not support item assignment. -/
def setSeg (v : YVal) (seg : String) (x : YVal) : Except PErr YVal :=
  match v with
  | .seq l =>
    if isDigitSeg seg then
      if digitsToNat seg.data < l.length then
        .ok (.seq (l.set (digitsToNat seg.data) x))
      else .error (.indexError seg)
    else .error (.typeError seg)
  | .map m =>
    if isDigitSeg seg then .error (.keyError seg)
    else .ok (.map (mapSet m seg x))
  | .str _ => .error (.typeError seg)
  | .num _ => .error (.typeError seg)

/-- Update a terminal mapping node, lines 741-760 of chartpress.py: at least
one of the repository keys `name`, `repository` must be present
(`IMAGE_REPOSITORY_KEYS & mod_obj.keys()`), each present one is set to the
repository value and `tag` is set to the tag value, with a change-log entry
for every field whose value actually changes.  The source iterates the
present keys in Python set order, which is unspecified; the model fixes the
order name-then-repository (the final mapping does not depend on it). -/
def updateMapping (pk : String) (m : List (String × YVal)) (repo tag : String) :
    Except PErr (List (String × YVal) × List LogEntry) :=
  let hasName := (mapGet m "name").isSome
  let hasRepo := (mapGet m "repository").isSome
  if !hasName && !hasRepo then .error (.keyError pk)
  else
    let log :=
      (if hasName && !isStrVal (mapGet m "name") repo then [LogEntry.field pk "name"] else [])
        ++ (if hasRepo && !isStrVal (mapGet m "repository") repo then [LogEntry.field pk "repository"] else [])
        ++ (if !isStrVal (mapGet m "tag") tag then [LogEntry.field pk "tag"] else [])
    let m1 := if hasName then mapSet m "name" (.str repo) else m
    let m2 := if hasRepo then mapSet m1 "repository" (.str repo) else m1
    .ok (mapSet m2 "tag" (.str tag), log)

/-- Apply one modification along its (split) path: descend with `getSeg`,
dispatch on the runtime shape of the terminal node, and rebuild the spine
(the source mutates nodes in place; the rebuild is the functional
equivalent).  `pk` is the original dotted path, used in error messages and
log entries. -/
def applyPath (v : YVal) (pk : String) (segs : List String) (repo tag : String) :
    Except PErr (YVal × List LogEntry) :=
  match segs with
  | [] => .error (.keyError pk)
  | [p] =>
    match getSeg v p with
    | .error e => .error e
    | .ok child =>
      match child with
      | .map m =>
        match updateMapping pk m repo tag with
        | .error e => .error e
        | .ok (m', log) =>
          match setSeg v p (.map m') with
          | .error e => .error e
          | .ok v' => .ok (v', log)
      | .str _ =>
        let image := repo ++ ":" ++ tag
        let log := if isStrVal (some child) image then [] else [LogEntry.scalar pk image]
        match setSeg v p (.str image) with
        | .error e => .error e
        | .ok v' => .ok (v', log)
      | _ => .error (.typeError pk)
  | p :: rest =>
    match getSeg v p with
    | .error e => .error e
    | .ok child =>
      match applyPath child pk rest repo tag with
      | .error e => .error e
      | .ok (child', log) =>
        match setSeg v p child' with
        | .error e => .error e
        | .ok v' => .ok (v', log)

/-- Validate a modification value: it must be a dict whose key set is
exactly `{repository, tag}`, else `ValueError`; returns the two values. -/
def modValue (pv : List (String × String)) : Option (String × String) :=
  if (pv.map Prod.fst).contains "repository" && (pv.map Prod.fst).contains "tag"
      && (pv.map Prod.fst).all (fun k => k == "repository" || k == "tag") then
    match pv.lookup "repository", pv.lookup "tag" with
    | some r, some t => some (r, t)
    | _, _ => none
  else none

/-- The loop of `_update_values_file_with_modifications`: apply every
modification in order to the in-memory document, accumulating the change
log; the first exception aborts the whole run. -/
def applyMods (values : YVal) (mods : List (String × List (String × String))) :
    Except PErr (YVal × List LogEntry) :=
  match mods with
  | [] => .ok (values, [])
  | (pk, pv) :: rest =>
    match modValue pv with
    | none => .error (.valueError pk)
    | some (repo, tag) =>
      match applyPath values pk ((splitDots pk.data).map String.mk) repo tag with
      | .error e => .error e
      | .ok (v1, log1) =>
        match applyMods v1 rest with
        | .error e => .error e
        | .ok (v2, log2) => .ok (v2, log1 ++ log2)

/-- Embedding of the whole of `_update_values_file_with_modifications`: the
document is loaded from disk, the modification loop runs in memory, and
`yaml.dump` persists the result only after the loop finishes; a raised
exception leaves the file as it was. -/
def _update_values_file_with_modifications (disk : YVal)
    (mods : List (String × List (String × String))) : YVal :=
  match applyMods disk mods with
  | .ok (v, _) => v
  | .error _ => disk

/-! ## Auxiliary definitions used by the proofs -/

/-- No adjacent pair `('.', 'g')` anywhere in the list: no position after
the head from which the `\.git\.` pattern of `_suffix_version_pat` could
start. -/
def noDotG : List Char → Bool
  | [] => true
  | [_] => true
  | a :: b :: rest => !(a = '.' && b = 'g') && noDotG (b :: rest)

/-- Apply `f` to the last component of a nonempty list of components. -/
def mapLast (f : List Char → List Char) : List (List Char) → List (List Char)
  | [] => []
  | [c] => [f c]
  | c :: d :: rest => c :: mapLast f (d :: rest)

/-! ## C1 -/

/-- C1: for every tag, commit hash and commit count, the identifier grammar
of `_get_identifier_from_parts` is: with `n_commits = 0` and `long = false`
the tag is returned unchanged; otherwise a tag that already contains a
prerelease (a `-`) gets `.git.{n_commits}.h{commit}` appended, and a bare
release tag gets `-0.dev.git.{n_commits}.h{commit}` appended. -/
theorem C1_identifier_grammar (tag commit : String) (n : Nat) (long : Bool) :
    (n = 0 → long = false → _get_identifier_from_parts tag n commit long = tag) ∧
    ((n ≠ 0 ∨ long = true) → '-' ∈ tag.data →
      _get_identifier_from_parts tag n commit long
        = tag ++ ".git." ++ toString n ++ ".h" ++ commit) ∧
    ((n ≠ 0 ∨ long = true) → '-' ∉ tag.data →
      _get_identifier_from_parts tag n commit long
        = tag ++ "-0.dev.git." ++ toString n ++ ".h" ++ commit) := by
  have hcond : ∀ h : n ≠ 0 ∨ long = true, (decide (n > 0) || long) = true := by
    rintro (h | h)
    · simp [Nat.pos_of_ne_zero h]
    · simp [h]
  refine ⟨fun hn hl => ?_, fun h hm => ?_, fun h hm => ?_⟩
  · subst hn; subst hl; simp [_get_identifier_from_parts]
  · rw [_get_identifier_from_parts]
    simp only [hcond h, if_pos, if_true]
    rw [if_pos hm]
    simp only [String.append_assoc]
    rfl
  · rw [_get_identifier_from_parts]
    simp only [hcond h, if_pos, if_true]
    rw [if_neg hm]
    simp only [String.append_assoc]
    rfl

/-- Witness for C1 at concrete inputs for each of the three cases. -/
theorem C1_identifier_grammar_witness :
    _get_identifier_from_parts "1.2.3" 0 "abc" false = "1.2.3" ∧
    _get_identifier_from_parts "1.2.3-alpha.1" 5 "abc" false
      = "1.2.3-alpha.1" ++ ".git." ++ toString 5 ++ ".h" ++ "abc" ∧
    _get_identifier_from_parts "1.2.3" 5 "abc" false
      = "1.2.3" ++ "-0.dev.git." ++ toString 5 ++ ".h" ++ "abc" :=
  ⟨(C1_identifier_grammar "1.2.3" "abc" 0 false).1 rfl rfl,
   (C1_identifier_grammar "1.2.3-alpha.1" "abc" 5 false).2.1 (Or.inl (by decide)) (by decide),
   (C1_identifier_grammar "1.2.3" "abc" 5 false).2.2 (Or.inl (by decide)) (by decide)⟩

/-! ## C3 -/

/-- C3: with no reachable tag and no configured base version, the base
defaults to `0.0.1-0.dev`; in particular 3 total commits, commit `abc1234`
and `long = false` derive exactly `0.0.1-0.dev.git.3.habc1234`. -/
theorem C3_default_base_version :
    (∀ (commit : String) (total cnt : Nat) (long : Bool),
      _get_identifier_from_paths commit total (none, cnt) long none
        = _get_identifier_from_parts "0.0.1-0.dev" total commit long) ∧
    _get_identifier_from_paths "abc1234" 3 (none, 3) false none
      = "0.0.1-0.dev.git.3.habc1234" :=
  ⟨fun _ _ _ _ => rfl, by decide⟩

/-! ## C8 -/

/-- C8: `_fix_chart_version` returns a strict-SemVer2 version unchanged,
strips one leading `v` when the remainder matches, and otherwise raises a
`ValueError` naming the version when strict, or passes the version through
unchanged when not strict. -/
theorem C8_fix_chart_version (v : String) (strict : Bool) :
    (matchesSemver2 v = true → _fix_chart_version v strict = .ok v) ∧
    (matchesSemver2 v = false → v.data.head? = some 'v' →
      matchesSemver2 (String.mk v.data.tail) = true →
      _fix_chart_version v strict = .ok (String.mk v.data.tail)) ∧
    (matchesSemver2 v = false →
      (v.data.head? = some 'v' → matchesSemver2 (String.mk v.data.tail) = false) →
      strict = true →
      _fix_chart_version v strict
        = .error ("The version in Chart.yaml " ++ v ++ " does not follow semantic versioning. Helm 3 requires published charts to have strict semantic versions.")) ∧
    (matchesSemver2 v = false →
      (v.data.head? = some 'v' → matchesSemver2 (String.mk v.data.tail) = false) →
      strict = false →
      _fix_chart_version v strict = .ok v) := by
  refine ⟨fun h1 => ?_, fun h1 h2 h3 => ?_, fun h1 h2 h3 => ?_, fun h1 h2 h3 => ?_⟩
  · simp [_fix_chart_version, h1]
  · simp [_fix_chart_version, h1, h2, h3]
  · by_cases hv : v.data.head? = some 'v'
    · simp [_fix_chart_version, h1, hv, h2 hv, h3]
    · simp [_fix_chart_version, h1, hv, h3]
  · by_cases hv : v.data.head? = some 'v'
    · simp [_fix_chart_version, h1, hv, h2 hv, h3]
    · simp [_fix_chart_version, h1, hv, h3]

/-- Witness for C8: one concrete instance of each of the four cases. -/
theorem C8_fix_chart_version_witness :
    _fix_chart_version "1.2.3" true = .ok "1.2.3" ∧
    _fix_chart_version "v1.2.3" true = .ok (String.mk "v1.2.3".data.tail) ∧
    _fix_chart_version "x.y" true
      = .error ("The version in Chart.yaml " ++ "x.y" ++ " does not follow semantic versioning. Helm 3 requires published charts to have strict semantic versions.") ∧
    _fix_chart_version "x.y" false = .ok "x.y" :=
  ⟨(C8_fix_chart_version "1.2.3" true).1 (by decide),
   (C8_fix_chart_version "v1.2.3" true).2.1 (by decide) (by decide) (by decide),
   (C8_fix_chart_version "x.y" true).2.2.1 (by decide) (fun _ => by decide) rfl,
   (C8_fix_chart_version "x.y" false).2.2.2 (by decide) (fun _ => by decide) rfl⟩

/-! ## C10 -/

/-- C10: the patcher persists the document only after every modification has
been applied; when any modification fails the on-disk document is unchanged. -/
theorem C10_atomic_on_error (disk : YVal)
    (mods : List (String × List (String × String))) (e : PErr)
    (h : applyMods disk mods = .error e) :
    _update_values_file_with_modifications disk mods = disk := by
  rw [_update_values_file_with_modifications, h]

/-- Witness for C10: a modification value whose key set is not exactly
`{repository, tag}` raises a `ValueError` and leaves the document alone. -/
theorem C10_atomic_on_error_witness :
    _update_values_file_with_modifications (YVal.map [("a", YVal.str "x")])
        [("a", [("bad", "x")])]
      = YVal.map [("a", YVal.str "x")] :=
  C10_atomic_on_error _ _ (PErr.valueError "a") rfl

/-! ## C5 -/

/-- C5: a shorthand base version `major`, `minor` or `patch` resolves to a
concrete numeric triple derived from the latest tag by incrementing the
named component and zeroing the lower components, which then re-enters
validation as a concrete version; resolution fails when a shorthand was
requested and the latest tag is not valid SemVer2. -/
theorem C5_shorthand_resolution (sh tag : String) (count : Nat)
    (hsh : sh = "major" ∨ sh = "minor" ∨ sh = "patch") :
    (∀ tv, parseSemver tag = some tv →
      _check_or_get_base_version sh (some tag, count)
        = _check_base_version
            (tripleToString
              (if sh = "major" then (tv.major + 1, 0, 0)
               else if sh = "minor" then (tv.major, tv.minor + 1, 0)
               else (tv.major, tv.minor, tv.patch + 1)))
            (some tag, count)) ∧
    (parseSemver tag = none →
      _check_or_get_base_version sh (some tag, count)
        = .error ("baseVersion: " ++ sh ++ " not valid when latest tag " ++ tag ++ " is not semver")) := by
  constructor
  · intro tv htv
    rw [_check_or_get_base_version, if_pos hsh]
    simp only [htv]
  · intro htv
    rw [_check_or_get_base_version, if_pos hsh]
    simp only [htv]

/-- Witness for C5: `patch` against latest tag 1.2.3 resolves to 1.2.4 and
validates to 1.2.4-0.dev; `patch` against the non-semver tag x.y.z fails. -/
theorem C5_shorthand_resolution_witness :
    _check_or_get_base_version "patch" (some "1.2.3", 10) = Except.ok "1.2.4-0.dev" ∧
    _check_or_get_base_version "patch" (some "x.y.z", 10)
      = Except.error ("baseVersion: " ++ "patch" ++ " not valid when latest tag " ++ "x.y.z" ++ " is not semver") :=
  ⟨(C5_shorthand_resolution "patch" "1.2.3" 10 (Or.inr (Or.inr rfl))).1
      ⟨1, 2, 3, none, none⟩ (by decide),
   (C5_shorthand_resolution "patch" "x.y.z" 10 (Or.inr (Or.inr rfl))).2 (by decide)⟩

/-! ## C4: counterexample -/

/-- C4 counterexample: for the bare release tag `1.2.3` (no `-`), `n = 5`,
commit `abc`, the generated identifier is `1.2.3-0.dev.git.5.habc`, and
`_trim_version_suffix` only strips the `.git.5.habc` part, recovering
`1.2.3-0.dev` rather than the original tag. -/
theorem C4_counterexample_bare_tag :
    _trim_version_suffix (_get_identifier_from_parts "1.2.3" 5 "abc" false)
        = "1.2.3-0.dev" ∧
    _trim_version_suffix (_get_identifier_from_parts "1.2.3" 5 "abc" false) ≠ "1.2.3" := by
  constructor
  · decide
  · decide

/-! ## C6: counterexample -/

/-- C6 counterexample: a terminal mapping that contains both `name` and
`repository` does not make the operation fail; both keys are updated.  The
claim that exactly one of the two keys must be present, otherwise the
operation fails, is false on the code. -/
theorem C6_counterexample_both_keys :
    applyMods
        (YVal.map [("image", YVal.map
          [("name", YVal.str "old/img"), ("repository", YVal.str "r0"),
           ("tag", YVal.str "0.1")])])
        [("image", [("repository", "new/img"), ("tag", "1.0.0")])]
      = Except.ok
          (YVal.map [("image", YVal.map
            [("name", YVal.str "new/img"), ("repository", YVal.str "new/img"),
             ("tag", YVal.str "1.0.0")])],
           [LogEntry.field "image" "name", LogEntry.field "image" "repository",
            LogEntry.field "image" "tag"]) := rfl

/-! ## C7: counterexample -/

/-- C7 counterexample: with the two overlapping paths `a.tag.x` and `a` in
one modification map, the first application succeeds (the `a` modification
overwrites the mapping at `a.tag` with a scalar tag string), but the second
application of the same map fails with a `TypeError` while resolving
`a.tag.x`, instead of returning the same document with an empty change log. -/
theorem C7_counterexample_overlapping_paths :
    applyMods
        (YVal.map [("a", YVal.map
          [("name", YVal.str "n"), ("tag", YVal.map [("x", YVal.str "img")])])])
        [("a.tag.x", [("repository", "r"), ("tag", "t")]),
         ("a", [("repository", "R"), ("tag", "T")])]
      = Except.ok
          (YVal.map [("a", YVal.map [("name", YVal.str "R"), ("tag", YVal.str "T")])],
           [LogEntry.scalar "a.tag.x" "r:t", LogEntry.field "a" "name",
            LogEntry.field "a" "tag"]) ∧
    applyMods
        (YVal.map [("a", YVal.map [("name", YVal.str "R"), ("tag", YVal.str "T")])])
        [("a.tag.x", [("repository", "r"), ("tag", "t")]),
         ("a", [("repository", "R"), ("tag", "T")])]
      = Except.error (PErr.typeError "x") ∧
    applyMods
        (YVal.map [("a", YVal.map [("name", YVal.str "R"), ("tag", YVal.str "T")])])
        [("a.tag.x", [("repository", "r"), ("tag", "t")]),
         ("a", [("repository", "R"), ("tag", "T")])]
      ≠ Except.ok
          (YVal.map [("a", YVal.map [("name", YVal.str "R"), ("tag", YVal.str "T")])],
           []) := by
  refine ⟨rfl, rfl, fun h => ?_⟩
  rw [(rfl : applyMods
        (YVal.map [("a", YVal.map [("name", YVal.str "R"), ("tag", YVal.str "T")])])
        [("a.tag.x", [("repository", "r"), ("tag", "t")]),
         ("a", [("repository", "R"), ("tag", "T")])]
      = Except.error (PErr.typeError "x"))] at h
  exact Except.noConfusion h

/-! ## C9: counterexample -/

/-- C9 counterexample: the base version `1.2.3+a-b` contains a `-` (inside
its build metadata), so no `-0.dev` suffix is appended; it validates
unchanged, yet the validated value has no prerelease component, refuting
the parenthetical claim that a validated base version is always a
prerelease. -/
theorem C9_counterexample_build_metadata :
    _check_base_version "1.2.3+a-b" (none, 5) = Except.ok "1.2.3+a-b" ∧
    parseSemver "1.2.3+a-b"
      = some { major := 1, minor := 2, patch := 3, prerelease := none,
               build := some "a-b" } := by
  exact ⟨rfl, by decide⟩

/-! ## Mapping-node lemmas -/

theorem mapGet_mapSet_self (m : List (String × YVal)) (k : String) (x : YVal) :
    mapGet (mapSet m k x) k = some x := by
  induction m with
  | nil => simp [mapSet, mapGet]
  | cons kv rest ih =>
    obtain ⟨k', v'⟩ := kv
    by_cases h : k' = k
    · subst h; simp [mapSet, mapGet]
    · simp [mapSet, mapGet, h, ih]

theorem mapGet_mapSet_ne (m : List (String × YVal)) (k key : String) (x : YVal)
    (h : k ≠ key) : mapGet (mapSet m k x) key = mapGet m key := by
  induction m with
  | nil => simp [mapSet, mapGet, h]
  | cons kv rest ih =>
    obtain ⟨k', v'⟩ := kv
    by_cases h2 : k' = k
    · subst h2; simp [mapSet, mapGet, h]
    · by_cases h3 : k' = key
      · subst h3; simp [mapSet, mapGet, h2]
      · simp [mapSet, mapGet, h2, h3, ih]

theorem mapSet_self (m : List (String × YVal)) (k : String) (x : YVal)
    (h : mapGet m k = some x) : mapSet m k x = m := by
  induction m with
  | nil => simp [mapGet] at h
  | cons kv rest ih =>
    obtain ⟨k', v'⟩ := kv
    by_cases h2 : k' = k
    · subst h2
      rw [mapGet, if_pos rfl] at h
      injection h with hv
      subst hv
      simp [mapSet]
    · simp only [mapGet, if_neg h2] at h
      simp [mapSet, h2, ih h]

/-! ## C6: amended claim -/

/-- C6 (amended): when a modification is applied at a terminal mapping node,
at least one of the keys `name`, `repository` must be present, otherwise the
operation fails with a `KeyError`; every present one of these keys is set to
the repository value, `tag` is set to the tag value, and a change-log entry
is emitted exactly for each field whose new value differs from its prior
value. -/
theorem C6_mapping_update (pk : String) (m : List (String × YVal)) (repo tag : String) :
    ((mapGet m "name").isSome = false → (mapGet m "repository").isSome = false →
      updateMapping pk m repo tag = .error (.keyError pk)) ∧
    ((mapGet m "name").isSome = true ∨ (mapGet m "repository").isSome = true →
      ∃ m' log, updateMapping pk m repo tag = .ok (m', log) ∧
        mapGet m' "tag" = some (.str tag) ∧
        ((mapGet m "name").isSome = true → mapGet m' "name" = some (.str repo)) ∧
        ((mapGet m "repository").isSome = true →
          mapGet m' "repository" = some (.str repo)) ∧
        (LogEntry.field pk "name" ∈ log ↔
          ((mapGet m "name").isSome = true ∧ isStrVal (mapGet m "name") repo = false)) ∧
        (LogEntry.field pk "repository" ∈ log ↔
          ((mapGet m "repository").isSome = true ∧
            isStrVal (mapGet m "repository") repo = false)) ∧
        (LogEntry.field pk "tag" ∈ log ↔ isStrVal (mapGet m "tag") tag = false)) := by
  have dNR : ("name" : String) ≠ "repository" := by decide
  have dNT : ("name" : String) ≠ "tag" := by decide
  have dRT : ("repository" : String) ≠ "tag" := by decide
  constructor
  · intro h1 h2
    rw [updateMapping]
    simp [h1, h2]
  · intro hpres
    rw [updateMapping]
    have hcond : (!(mapGet m "name").isSome && !(mapGet m "repository").isSome) = false := by
      rcases hpres with h | h <;> simp [h]
    rw [hcond]
    simp only [Bool.false_eq_true, if_false]
    refine ⟨_, _, rfl, ?_, ?_, ?_, ?_, ?_, ?_⟩
    · exact mapGet_mapSet_self ..
    · intro hn
      rw [mapGet_mapSet_ne _ "tag" "name" _ (by decide)]
      by_cases hr : (mapGet m "repository").isSome = true
      · rw [if_pos hr, mapGet_mapSet_ne _ "repository" "name" _ (by decide), if_pos hn]
        exact mapGet_mapSet_self ..
      · rw [if_neg hr, if_pos hn]
        exact mapGet_mapSet_self ..
    · intro hr
      rw [mapGet_mapSet_ne _ "tag" "repository" _ (by decide), if_pos hr]
      exact mapGet_mapSet_self ..
    · by_cases h1 : (mapGet m "name").isSome = true <;>
        by_cases s1 : isStrVal (mapGet m "name") repo = true <;>
        by_cases h2 : (mapGet m "repository").isSome = true <;>
        by_cases s2 : isStrVal (mapGet m "repository") repo = true <;>
        by_cases s3 : isStrVal (mapGet m "tag") tag = true <;>
        simp [h1, s1, h2, s2, s3, dNR, dNT]
    · by_cases h1 : (mapGet m "name").isSome = true <;>
        by_cases s1 : isStrVal (mapGet m "name") repo = true <;>
        by_cases h2 : (mapGet m "repository").isSome = true <;>
        by_cases s2 : isStrVal (mapGet m "repository") repo = true <;>
        by_cases s3 : isStrVal (mapGet m "tag") tag = true <;>
        simp [h1, s1, h2, s2, s3, dNR.symm, dRT]
    · by_cases h1 : (mapGet m "name").isSome = true <;>
        by_cases s1 : isStrVal (mapGet m "name") repo = true <;>
        by_cases h2 : (mapGet m "repository").isSome = true <;>
        by_cases s2 : isStrVal (mapGet m "repository") repo = true <;>
        by_cases s3 : isStrVal (mapGet m "tag") tag = true <;>
        simp [h1, s1, h2, s2, s3, dNT.symm, dRT.symm]

/-- Witness for C6 at a concrete mapping without `name` or `repository`:
the operation fails with a `KeyError`. -/
theorem C6_mapping_update_witness :
    updateMapping "img" [("other", YVal.str "v")] "r" "t"
      = .error (.keyError "img") :=
  (C6_mapping_update "img" [("other", YVal.str "v")] "r" "t").1 (by decide) (by decide)

theorem mapSet_mapSet (m : List (String × YVal)) (k : String) (x : YVal) :
    mapSet (mapSet m k x) k x = mapSet m k x :=
  mapSet_self _ _ _ (mapGet_mapSet_self m k x)

/-- After a successful read of a segment, writing that segment succeeds, the
written value reads back, and writing it again is absorbed. -/
theorem setSeg_getSeg_facts (v : YVal) (p : String) (c x : YVal)
    (h : getSeg v p = .ok c) :
    ∃ w, setSeg v p x = .ok w ∧ getSeg w p = .ok x ∧ setSeg w p x = .ok w := by
  cases v with
  | seq l =>
    rw [getSeg] at h
    by_cases hd : isDigitSeg p = true
    · rw [if_pos hd] at h
      by_cases hi : digitsToNat p.data < l.length
      · have hi2 : digitsToNat p.data < (l.set (digitsToNat p.data) x).length := by
          simpa using hi
        refine ⟨.seq (l.set (digitsToNat p.data) x), ?_, ?_, ?_⟩
        · rw [setSeg, if_pos hd, if_pos hi]
        · rw [getSeg, if_pos hd, dif_pos hi2]
          simp
        · rw [setSeg, if_pos hd, if_pos hi2, List.set_set]
      · rw [dif_neg hi] at h
        exact Except.noConfusion h
    · rw [if_neg hd] at h
      exact Except.noConfusion h
  | map m =>
    rw [getSeg] at h
    by_cases hd : isDigitSeg p = true
    · rw [if_pos hd] at h
      exact Except.noConfusion h
    · refine ⟨.map (mapSet m p x), ?_, ?_, ?_⟩
      · rw [setSeg, if_neg hd]
      · rw [getSeg, if_neg hd, mapGet_mapSet_self]
      · rw [setSeg, if_neg hd, mapSet_mapSet]
  | str s => rw [getSeg] at h; exact Except.noConfusion h
  | num n => rw [getSeg] at h; exact Except.noConfusion h

/-- A successful terminal mapping update is a fixed point: running the same
update again changes nothing and logs nothing. -/
theorem updateMapping_idem (pk : String) (m : List (String × YVal)) (repo tag : String)
    (m' : List (String × YVal)) (log : List LogEntry)
    (h : updateMapping pk m repo tag = .ok (m', log)) :
    updateMapping pk m' repo tag = .ok (m', []) := by
  rw [updateMapping] at h
  split at h
  · exact Except.noConfusion h
  case isFalse hcond =>
    injection h with h1
    injection h1 with hm hlog
    by_cases hN : (mapGet m "name").isSome = true <;>
      by_cases hR : (mapGet m "repository").isSome = true
    · rw [if_pos hN, if_pos hR] at hm
      have gname : mapGet m' "name" = some (YVal.str repo) := by
        rw [← hm, mapGet_mapSet_ne _ "tag" "name" _ (by decide),
          mapGet_mapSet_ne _ "repository" "name" _ (by decide), mapGet_mapSet_self]
      have grepo : mapGet m' "repository" = some (YVal.str repo) := by
        rw [← hm, mapGet_mapSet_ne _ "tag" "repository" _ (by decide), mapGet_mapSet_self]
      have gtag : mapGet m' "tag" = some (YVal.str tag) := by
        rw [← hm]; exact mapGet_mapSet_self ..
      rw [updateMapping, gname, grepo]
      simp only [Option.isSome_some, Bool.not_true, Bool.and_self, Bool.false_eq_true,
        if_false, if_true]
      rw [mapSet_self _ _ _ gname, mapSet_self _ _ _ grepo, mapSet_self _ _ _ gtag]
      simp [isStrVal, gname, grepo, gtag]
    · rw [if_pos hN, if_neg hR] at hm
      have gname : mapGet m' "name" = some (YVal.str repo) := by
        rw [← hm, mapGet_mapSet_ne _ "tag" "name" _ (by decide), mapGet_mapSet_self]
      have grepo : mapGet m' "repository" = mapGet m "repository" := by
        rw [← hm, mapGet_mapSet_ne _ "tag" "repository" _ (by decide),
          mapGet_mapSet_ne _ "name" "repository" _ (by decide)]
      have gtag : mapGet m' "tag" = some (YVal.str tag) := by
        rw [← hm]; exact mapGet_mapSet_self ..
      rw [updateMapping, gname, grepo]
      simp only [Bool.not_eq_true] at hR
      simp only [hR, Option.isSome_some, Bool.not_true, Bool.not_false, Bool.and_false,
        Bool.false_eq_true, if_false, if_true, Bool.false_and]
      rw [mapSet_self _ _ _ gname, mapSet_self _ _ _ gtag]
      simp [isStrVal, gname, gtag]
    · rw [if_neg hN, if_pos hR] at hm
      have gname : mapGet m' "name" = mapGet m "name" := by
        rw [← hm, mapGet_mapSet_ne _ "tag" "name" _ (by decide),
          mapGet_mapSet_ne _ "repository" "name" _ (by decide)]
      have grepo : mapGet m' "repository" = some (YVal.str repo) := by
        rw [← hm, mapGet_mapSet_ne _ "tag" "repository" _ (by decide), mapGet_mapSet_self]
      have gtag : mapGet m' "tag" = some (YVal.str tag) := by
        rw [← hm]; exact mapGet_mapSet_self ..
      rw [updateMapping, gname, grepo]
      simp only [Bool.not_eq_true] at hN
      simp only [hN, Option.isSome_some, Bool.not_true, Bool.not_false, Bool.false_and,
        Bool.false_eq_true, if_false, if_true]
      rw [mapSet_self _ _ _ grepo, mapSet_self _ _ _ gtag]
      simp [isStrVal, grepo, gtag]
    · exfalso
      apply hcond
      simp only [Bool.not_eq_true] at hN hR
      simp [hN, hR]

/-- A successful application of one modification along its path is
idempotent: running it again on the result changes nothing and logs
nothing. -/
theorem applyPath_idem (segs : List String) (v : YVal) (pk repo tag : String)
    (v' : YVal) (log : List LogEntry)
    (h : applyPath v pk segs repo tag = .ok (v', log)) :
    applyPath v' pk segs repo tag = .ok (v', []) := by
  induction segs generalizing v v' log with
  | nil => rw [applyPath] at h; exact Except.noConfusion h
  | cons p rest ih =>
    cases rest with
    | nil =>
      rw [applyPath] at h
      cases hg : getSeg v p with
      | error e =>
        simp only [hg] at h
        exact Except.noConfusion h
      | ok child =>
        simp only [hg] at h
        cases child with
        | map m =>
          cases hu : updateMapping pk m repo tag with
          | error e => simp only [hu] at h; exact Except.noConfusion h
          | ok pr =>
            obtain ⟨m2, lg⟩ := pr
            simp only [hu] at h
            cases hs : setSeg v p (.map m2) with
            | error e => simp only [hs] at h; exact Except.noConfusion h
            | ok w =>
              simp only [hs] at h
              injection h with h1
              injection h1 with hw hlog
              subst hw
              obtain ⟨w2, hset, hget, hset2⟩ :=
                setSeg_getSeg_facts v p (.map m) (.map m2) hg
              rw [hs] at hset
              injection hset with hw2
              subst hw2
              simp only [applyPath, hget, updateMapping_idem pk m repo tag m2 lg hu,
                hset2]
        | str s =>
          cases hs : setSeg v p (.str (repo ++ ":" ++ tag)) with
          | error e => simp only [hs] at h; exact Except.noConfusion h
          | ok w =>
            simp only [hs] at h
            injection h with h1
            injection h1 with hw hlog
            subst hw
            obtain ⟨w2, hset, hget, hset2⟩ :=
              setSeg_getSeg_facts v p (.str s) (.str (repo ++ ":" ++ tag)) hg
            rw [hs] at hset
            injection hset with hw2
            subst hw2
            simp only [applyPath, hget]
            simp [isStrVal, hset2]
        | num n => exact Except.noConfusion h
        | seq l => exact Except.noConfusion h
    | cons q rest2 =>
      rw [applyPath] at h
      all_goals try (intro hh; exact List.noConfusion hh)
      cases hg : getSeg v p with
      | error e => simp only [hg] at h; exact Except.noConfusion h
      | ok child =>
        simp only [hg] at h
        cases ha : applyPath child pk (q :: rest2) repo tag with
        | error e => simp only [ha] at h; exact Except.noConfusion h
        | ok pr =>
          obtain ⟨child', lg⟩ := pr
          simp only [ha] at h
          cases hs : setSeg v p child' with
          | error e => simp only [hs] at h; exact Except.noConfusion h
          | ok w =>
            simp only [hs] at h
            injection h with h1
            injection h1 with hw hlog
            subst hw
            obtain ⟨w2, hset, hget, hset2⟩ := setSeg_getSeg_facts v p child child' hg
            rw [hs] at hset
            injection hset with hw2
            subst hw2
            simp only [applyPath, hget, ih child child' lg ha, hset2]

/-! ## C7: amended claim -/

/-- C7 (amended): a modification map containing a single modification is
idempotent: when applying it succeeds, applying it again to the patched
document returns the identical document with an empty change log.  (The
counterexample shows that maps with several, overlapping paths need not be
idempotent.) -/
theorem C7_single_modification_idempotent (doc : YVal) (pk : String)
    (pv : List (String × String)) (doc' : YVal) (log : List LogEntry)
    (h : applyMods doc [(pk, pv)] = .ok (doc', log)) :
    applyMods doc' [(pk, pv)] = .ok (doc', []) := by
  rw [applyMods] at h ⊢
  cases hm : modValue pv with
  | none => simp only [hm] at h; exact Except.noConfusion h
  | some rt =>
    obtain ⟨repo, tag⟩ := rt
    simp only [hm] at h ⊢
    cases ha : applyPath doc pk ((splitDots pk.data).map String.mk) repo tag with
    | error e => simp only [ha] at h; exact Except.noConfusion h
    | ok pr =>
      obtain ⟨v1, log1⟩ := pr
      simp only [ha, applyMods, List.append_nil] at h
      injection h with h1
      injection h1 with hv hlog
      subst hv
      simp only [applyPath_idem _ _ _ _ _ _ _ ha, applyMods, List.append_nil]

/-- Witness for C7 at a concrete document and single modification. -/
theorem C7_single_modification_idempotent_witness :
    applyMods
        (YVal.map [("image", YVal.map
          [("name", YVal.str "new/img"), ("tag", YVal.str "1.0.0")])])
        [("image", [("repository", "new/img"), ("tag", "1.0.0")])]
      = Except.ok
          (YVal.map [("image", YVal.map
            [("name", YVal.str "new/img"), ("tag", YVal.str "1.0.0")])], []) :=
  C7_single_modification_idempotent
    (YVal.map [("image", YVal.map
      [("name", YVal.str "old/img"), ("tag", YVal.str "0.0.1")])])
    "image" [("repository", "new/img"), ("tag", "1.0.0")]
    (YVal.map [("image", YVal.map
      [("name", YVal.str "new/img"), ("tag", YVal.str "1.0.0")])])
    [LogEntry.field "image" "name", LogEntry.field "image" "tag"]
    rfl

/-! ## Splitter lemmas for the semver scanner -/

theorem splitFirst_not_mem (c : Char) (l : List Char) (h : c ∉ l) :
    splitFirst c l = (l, none) := by
  induction l with
  | nil => rfl
  | cons a rest ih =>
    have ha : ¬(a = c) := fun e => h (e ▸ List.mem_cons_self a rest)
    have hr : c ∉ rest := fun hm => h (List.mem_cons_of_mem a hm)
    rw [splitFirst, if_neg ha]
    simp [ih hr]

theorem splitFirst_append (c : Char) (l m : List Char) (h : c ∉ l) :
    splitFirst c (l ++ c :: m) = (l, some m) := by
  induction l with
  | nil => simp [splitFirst]
  | cons a rest ih =>
    have ha : ¬(a = c) := fun e => h (e ▸ List.mem_cons_self a rest)
    have hr : c ∉ rest := fun hm => h (List.mem_cons_of_mem a hm)
    rw [List.cons_append, splitFirst, if_neg ha]
    simp [ih hr]

theorem splitFirst_eq_none (c : Char) (l pre : List Char)
    (h : splitFirst c l = (pre, none)) : pre = l ∧ c ∉ l := by
  induction l generalizing pre with
  | nil =>
    rw [splitFirst] at h
    injection h with h1 h2
    exact ⟨h1.symm, by simp⟩
  | cons a rest ih =>
    rw [splitFirst] at h
    by_cases ha : a = c
    · rw [if_pos ha] at h
      injection h with h1 h2
      exact Option.noConfusion h2
    · rw [if_neg ha] at h
      injection h with h1 h2
      have hsf : splitFirst c rest = ((splitFirst c rest).1, none) := by
        rw [← h2]
      obtain ⟨hpre, hmem⟩ := ih (splitFirst c rest).1 hsf
      constructor
      · rw [← h1, hpre]
      · intro hc
        rcases List.mem_cons.mp hc with e | e
        · exact ha e.symm
        · exact hmem e

theorem splitFirst_eq_some (c : Char) (l pre post : List Char)
    (h : splitFirst c l = (pre, some post)) :
    l = pre ++ c :: post ∧ c ∉ pre := by
  induction l generalizing pre with
  | nil =>
    rw [splitFirst] at h
    injection h with h1 h2
    exact Option.noConfusion h2
  | cons a rest ih =>
    rw [splitFirst] at h
    by_cases ha : a = c
    · rw [if_pos ha] at h
      injection h with h1 h2
      injection h2 with h3
      subst ha
      rw [← h1, h3]
      exact ⟨rfl, by simp⟩
    · rw [if_neg ha] at h
      injection h with h1 h2
      have hsf : splitFirst c rest = ((splitFirst c rest).1, some post) := by
        rw [← h2]
      obtain ⟨hrest, hmem⟩ := ih (splitFirst c rest).1 hsf
      subst h1
      constructor
      · rw [List.cons_append]
        exact congrArg (List.cons a) hrest
      · intro hc
        rcases List.mem_cons.mp hc with e | e
        · exact ha e.symm
        · exact hmem e

theorem splitDots_ne_nil (l : List Char) : splitDots l ≠ [] := by
  cases l with
  | nil => simp [splitDots]
  | cons a rest =>
    simp only [splitDots]
    by_cases ha : a = '.'
    · simp [ha]
    · simp only [if_neg ha]
      cases h : splitDots rest with
      | nil => simp
      | cons x xs => simp

theorem splitDots_no_dot (c : List Char) (h : '.' ∉ c) : splitDots c = [c] := by
  induction c with
  | nil => rfl
  | cons a rest ih =>
    have ha : ¬(a = '.') := fun e => h (e ▸ List.mem_cons_self a rest)
    have hr : '.' ∉ rest := fun hm => h (List.mem_cons_of_mem a hm)
    simp only [splitDots, if_neg ha, ih hr]

theorem splitDots_append_dot (c r : List Char) (h : '.' ∉ c) :
    splitDots (c ++ '.' :: r) = c :: splitDots r := by
  induction c with
  | nil => simp [splitDots]
  | cons a rest ih =>
    have ha : ¬(a = '.') := fun e => h (e ▸ List.mem_cons_self a rest)
    have hr : '.' ∉ rest := fun hm => h (List.mem_cons_of_mem a hm)
    rw [List.cons_append, splitDots]
    simp only [if_neg ha, ih hr]

theorem joinDots_splitDots (l : List Char) : joinDots (splitDots l) = l := by
  induction l with
  | nil => rfl
  | cons a rest ih =>
    simp only [splitDots]
    by_cases ha : a = '.'
    · rw [if_pos ha]
      cases hr : splitDots rest with
      | nil => exact absurd hr (splitDots_ne_nil rest)
      | cons x xs =>
        rw [hr] at ih
        rw [ha, joinDots, List.nil_append, ih]
    · rw [if_neg ha]
      cases hr : splitDots rest with
      | nil => exact absurd hr (splitDots_ne_nil rest)
      | cons x xs =>
        rw [hr] at ih
        cases xs with
        | nil =>
          rw [joinDots] at ih ⊢
          rw [ih]
        | cons y ys =>
          rw [joinDots] at ih
          rw [joinDots, List.cons_append]
          exact congrArg (List.cons a) ih

theorem mem_splitDots_no_dot (l comp : List Char) (h : comp ∈ splitDots l) :
    '.' ∉ comp := by
  induction l generalizing comp with
  | nil =>
    simp only [splitDots, List.mem_singleton] at h
    subst h
    simp
  | cons a rest ih =>
    simp only [splitDots] at h
    by_cases ha : a = '.'
    · rw [if_pos ha] at h
      rcases List.mem_cons.mp h with e | e
      · subst e; simp
      · exact ih comp e
    · rw [if_neg ha] at h
      cases hr : splitDots rest with
      | nil => exact absurd hr (splitDots_ne_nil rest)
      | cons x xs =>
        rw [hr] at h
        rcases List.mem_cons.mp h with e | e
        · subst e
          intro hc
          rcases List.mem_cons.mp hc with e2 | e2
          · exact ha e2.symm
          · exact ih x (hr ▸ List.mem_cons_self x xs) e2
        · exact ih comp (hr ▸ List.mem_cons_of_mem x e)

theorem splitDots_joinDots (cs : List (List Char)) (hne : cs ≠ [])
    (h : ∀ comp ∈ cs, '.' ∉ comp) : splitDots (joinDots cs) = cs := by
  induction cs with
  | nil => exact absurd rfl hne
  | cons c cs' ih =>
    cases cs' with
    | nil =>
      rw [joinDots]
      exact splitDots_no_dot c (h c (List.mem_cons_self ..))
    | cons d ds =>
      rw [joinDots, splitDots_append_dot _ _ (h c (List.mem_cons_self ..))]
      rw [ih (by simp) (fun comp hc => h comp (List.mem_cons_of_mem c hc))]

theorem mapLast_ne_nil (f : List Char → List Char) (cs : List (List Char))
    (h : cs ≠ []) : mapLast f cs ≠ [] := by
  cases cs with
  | nil => exact absurd rfl h
  | cons c cs' => cases cs' <;> simp [mapLast]

theorem mem_mapLast (f : List Char → List Char) (cs : List (List Char)) (x : List Char)
    (h : x ∈ mapLast f cs) : x ∈ cs ∨ ∃ y ∈ cs, x = f y := by
  induction cs with
  | nil => simp [mapLast] at h
  | cons c cs' ih =>
    cases cs' with
    | nil =>
      simp only [mapLast, List.mem_singleton] at h
      exact Or.inr ⟨c, List.mem_cons_self .., h⟩
    | cons d ds =>
      rw [mapLast] at h
      rcases List.mem_cons.mp h with e | e
      · exact Or.inl (e ▸ List.mem_cons_self ..)
      · rcases ih e with e2 | ⟨y, hy, hxy⟩
        · exact Or.inl (List.mem_cons_of_mem c e2)
        · exact Or.inr ⟨y, List.mem_cons_of_mem c hy, hxy⟩

theorem joinDots_append_singleton (cs : List (List Char)) (y : List Char) (h : cs ≠ []) :
    joinDots (cs ++ [y]) = joinDots cs ++ '.' :: y := by
  induction cs with
  | nil => exact absurd rfl h
  | cons c cs' ih =>
    cases cs' with
    | nil =>
      rw [List.cons_append, List.nil_append, joinDots, joinDots, joinDots]
    | cons d ds =>
      have ih' : joinDots (d :: (ds ++ [y])) = joinDots (d :: ds) ++ '.' :: y := by
        rw [← List.cons_append]
        exact ih (by simp)
      rw [List.cons_append, List.cons_append, joinDots, ih', joinDots,
        List.append_assoc, List.cons_append]

theorem joinDots_mapLast_append (cs : List (List Char)) (s : List Char) (h : cs ≠ []) :
    joinDots (mapLast (· ++ s) cs) = joinDots cs ++ s := by
  induction cs with
  | nil => exact absurd rfl h
  | cons c cs' ih =>
    cases cs' with
    | nil => rw [mapLast, joinDots, joinDots]
    | cons d ds =>
      rw [mapLast]
      cases hm : mapLast (· ++ s) (d :: ds) with
      | nil => exact absurd hm (mapLast_ne_nil _ _ (by simp))
      | cons m ms =>
        rw [joinDots, ← hm, ih (by simp), joinDots, List.append_assoc, List.cons_append]

theorem dotIdentsOk_append_dev (l : List Char) (h : dotIdentsOk l isBuildIdent = true) :
    dotIdentsOk (l ++ ['-', '0', '.', 'd', 'e', 'v']) isBuildIdent = true := by
  have hne := splitDots_ne_nil l
  have hjoin := joinDots_splitDots l
  have hall : ∀ comp ∈ splitDots l, isBuildIdent comp = true := by
    rw [dotIdentsOk, List.all_eq_true] at h
    exact h
  have hdots : ∀ comp ∈ splitDots l, '.' ∉ comp :=
    fun comp hc => mem_splitDots_no_dot l comp hc
  have hprops : ∀ comp ∈ mapLast (· ++ ['-', '0']) (splitDots l) ++ [['d', 'e', 'v']],
      isBuildIdent comp = true ∧ '.' ∉ comp := by
    intro comp hc
    rcases List.mem_append.mp hc with hc1 | hc1
    · rcases mem_mapLast _ _ _ hc1 with hc2 | ⟨y, hy, hxy⟩
      · exact ⟨hall comp hc2, hdots comp hc2⟩
      · subst hxy
        have h1 := hall y hy
        have h2 := hdots y hy
        rw [isBuildIdent, Bool.and_eq_true, List.all_eq_true] at h1
        constructor
        · rw [isBuildIdent, Bool.and_eq_true, List.all_eq_true]
          constructor
          · cases y <;> simp
          · intro cch hcch
            rcases List.mem_append.mp hcch with e | e
            · exact h1.2 cch e
            · simp only [List.mem_cons, List.not_mem_nil, or_false] at e
              rcases e with rfl | rfl <;> decide
        · intro hcmem
          rcases List.mem_append.mp hcmem with e | e
          · exact h2 e
          · simp at e
    · simp only [List.mem_singleton] at hc1
      subst hc1
      exact ⟨by decide, by decide⟩
  have hjoin2 : l ++ ['-', '0', '.', 'd', 'e', 'v']
      = joinDots (mapLast (· ++ ['-', '0']) (splitDots l) ++ [['d', 'e', 'v']]) := by
    rw [joinDots_append_singleton _ _ (mapLast_ne_nil _ _ hne),
      joinDots_mapLast_append _ _ hne, hjoin, List.append_assoc]
    rfl
  rw [dotIdentsOk, hjoin2,
    splitDots_joinDots _ (by simp) (fun comp hc => (hprops comp hc).2),
    List.all_eq_true]
  exact fun comp hc => (hprops comp hc).1

/-! ## Inversion lemmas for `parseSemver` -/

theorem numericIdent_head (x : List Char) (h : isNumericIdentL x = true) :
    ∃ c xr, x = c :: xr ∧ c.isDigit = true := by
  cases x with
  | nil => simp [isNumericIdentL] at h
  | cons c xr =>
    refine ⟨c, xr, rfl, ?_⟩
    rw [isNumericIdentL, Bool.and_eq_true, Bool.or_eq_true] at h
    rcases h.1 with h1 | h1
    · rw [Bool.and_eq_true, decide_eq_true_eq, decide_eq_true_eq] at h1
      obtain ⟨hlo, hhi⟩ := h1
      rw [Char.le_def] at hlo hhi
      rw [Char.isDigit]
      simp only [Bool.and_eq_true, decide_eq_true_eq]
      constructor
      · exact UInt32.le_trans (show (48 : UInt32) ≤ ('1' : Char).val by decide) hlo
      · exact UInt32.le_trans hhi (show (('9' : Char).val : UInt32) ≤ 57 by decide)
    · rw [Bool.and_eq_true, decide_eq_true_eq] at h1
      rw [h1.1]
      decide

theorem parseCore_head_digit (core : List Char) (tri : Nat × Nat × Nat)
    (h : parseCore core = some tri) :
    ∃ c rest, core = c :: rest ∧ c.isDigit = true := by
  rw [parseCore] at h
  split at h
  case h_2 => exact Option.noConfusion h
  case h_1 x y z heq =>
    split at h
    case isFalse => exact Option.noConfusion h
    case isTrue hnum =>
      rw [Bool.and_eq_true, Bool.and_eq_true] at hnum
      obtain ⟨c, xr, hx, hdig⟩ := numericIdent_head x hnum.1.1
      have hjoin : joinDots (splitDots core) = core := joinDots_splitDots core
      rw [heq] at hjoin
      rw [joinDots, joinDots, joinDots] at hjoin
      rw [hx, List.cons_append] at hjoin
      exact ⟨c, _, hjoin.symm, hdig⟩

theorem splitFirst_fst_prefix (c : Char) (l : List Char) :
    ∃ tail, l = (splitFirst c l).1 ++ tail := by
  rcases hsp : splitFirst c l with ⟨pre, opt⟩
  cases opt with
  | none =>
    obtain ⟨hc, _⟩ := splitFirst_eq_none c l pre hsp
    exact ⟨[], by rw [hc, List.append_nil]⟩
  | some post =>
    obtain ⟨hc, _⟩ := splitFirst_eq_some c l pre post hsp
    exact ⟨c :: post, hc⟩

theorem parseSemver_inv (s : String) (sv : SemVer) (h : parseSemver s = some sv) :
    ∃ tri, parseCore (splitFirst '-' (splitFirst '+' s.data).1).1 = some tri := by
  simp only [parseSemver] at h
  split at h
  · split at h
    · cases hq : parseCore (splitFirst '-' (splitFirst '+' s.data).1).1 with
      | none => rw [hq] at h; exact Option.noConfusion h
      | some tri => exact ⟨tri, rfl⟩
    · exact Option.noConfusion h
  · exact Option.noConfusion h

/-- A string that fully matches the semver regex starts with a digit. -/
theorem parseSemver_head_digit (s : String) (sv : SemVer)
    (h : parseSemver s = some sv) :
    ∃ c rest, s.data = c :: rest ∧ c.isDigit = true := by
  obtain ⟨tri, hpc⟩ := parseSemver_inv s sv h
  obtain ⟨c, rest, hcore, hdig⟩ := parseCore_head_digit _ tri hpc
  obtain ⟨tail2, h2⟩ := splitFirst_fst_prefix '-' (splitFirst '+' s.data).1
  obtain ⟨tail1, h1⟩ := splitFirst_fst_prefix '+' s.data
  rw [h2, hcore, List.cons_append] at h1
  exact ⟨c, _, by rw [h1, List.cons_append], hdig⟩

/-- `tag.lstrip("v")` is the identity on a valid semver tag (which starts
with a digit). -/
theorem lstrip_v_of_parse (t : String) (tv : SemVer) (h : parseSemver t = some tv) :
    t.data.dropWhile (· = 'v') = t.data := by
  obtain ⟨c, rest, hdata, hdig⟩ := parseSemver_head_digit t tv h
  rw [hdata, List.dropWhile_cons]
  have hcv : ¬(c = 'v') := by
    intro e
    rw [e] at hdig
    exact absurd hdig (by decide)
  simp [hcv]

theorem parse_ne_empty (t : String) (tv : SemVer) (h : parseSemver t = some tv) :
    t ≠ "" := by
  obtain ⟨c, rest, hdata, _⟩ := parseSemver_head_digit t tv h
  intro e
  rw [e] at hdata
  exact List.noConfusion hdata

/-- A version that parses, contains a `-` and has no `+` must have a
prerelease component. -/
theorem parse_prerelease_of_dash (s : String) (sv : SemVer)
    (h : parseSemver s = some sv) (hplus : '+' ∉ s.data) (hdash : '-' ∈ s.data) :
    sv.prerelease.isSome = true := by
  have hsp := splitFirst_not_mem '+' s.data hplus
  simp only [parseSemver, hsp] at h
  rcases hcp : splitFirst '-' s.data with ⟨core, preopt⟩
  cases preopt with
  | none =>
    obtain ⟨_, hnd⟩ := splitFirst_eq_none '-' s.data core hcp
    exact absurd hdash hnd
  | some p =>
    simp only [hcp] at h
    split at h
    · split at h
      · cases hq : parseCore core with
        | none => simp only [hq] at h; exact Option.noConfusion h
        | some tri =>
          obtain ⟨ma, mi, pa⟩ := tri
          simp only [hq, Option.map_some] at h
          injection h with hbv
          rw [← hbv]
          rfl
      · exact Option.noConfusion h
    · exact Option.noConfusion h

/-- Appending the default prerelease `-0.dev` to a version that parses and
contains no `-` yields a version that still parses with the same numeric
triple; when the original carries no `+` build metadata, the result has a
prerelease. -/
theorem parseSemver_suffix (b : String) (bv : SemVer) (h : parseSemver b = some bv)
    (hnd : '-' ∉ b.data) :
    ∃ bv', parseSemver (b ++ "-0.dev") = some bv' ∧ bv'.major = bv.major ∧
      bv'.minor = bv.minor ∧ bv'.patch = bv.patch ∧
      ('+' ∉ b.data → bv'.prerelease.isSome = true) := by
  have hdata : (b ++ "-0.dev").data = b.data ++ ['-', '0', '.', 'd', 'e', 'v'] := by
    rw [String.data_append]
  have hpredev : dotIdentsOk ['0', '.', 'd', 'e', 'v'] isPreIdent = true := by decide
  rcases hsp : splitFirst '+' b.data with ⟨corePre, build⟩
  cases build with
  | none =>
    obtain ⟨hcore, hplus⟩ := splitFirst_eq_none '+' b.data corePre hsp
    subst hcore
    simp only [parseSemver, hsp, splitFirst_not_mem '-' b.data hnd] at h
    cases hpc : parseCore b.data with
    | none => simp only [hpc] at h; exact Option.noConfusion h
    | some tri =>
      obtain ⟨ma, mi, pa⟩ := tri
      simp only [hpc, Option.map_none, if_true] at h
      injection h with hbv
      have hsp2 : splitFirst '+' (b ++ "-0.dev").data = ((b ++ "-0.dev").data, none) := by
        apply splitFirst_not_mem
        rw [hdata]
        intro hm
        rcases List.mem_append.mp hm with e | e
        · exact hplus e
        · exact absurd e (by decide)
      have hcp2 : splitFirst '-' (b ++ "-0.dev").data
          = (b.data, some ['0', '.', 'd', 'e', 'v']) := by
        rw [hdata]
        exact splitFirst_append '-' b.data _ hnd
      refine ⟨⟨ma, mi, pa, some (String.mk ['0', '.', 'd', 'e', 'v']), none⟩, ?_, ?_, ?_, ?_,
        fun _ => rfl⟩
      · simp only [parseSemver, hsp2, hcp2, hpredev, hpc, if_true]
        rfl
      · rw [← hbv]
      · rw [← hbv]
      · rw [← hbv]
  | some post =>
    obtain ⟨hdecomp, hpluspre⟩ := splitFirst_eq_some '+' b.data corePre post hsp
    have hndcp : '-' ∉ corePre := fun hm => hnd (hdecomp ▸ List.mem_append_left _ hm)
    simp only [parseSemver, hsp, splitFirst_not_mem '-' corePre hndcp] at h
    cases hbb : dotIdentsOk post isBuildIdent with
    | false => rw [hbb] at h; simp at h
    | true =>
      rw [hbb] at h
      simp only [if_true] at h
      cases hpc : parseCore corePre with
      | none => simp only [hpc] at h; exact Option.noConfusion h
      | some tri =>
        obtain ⟨ma, mi, pa⟩ := tri
        simp only [hpc, Option.map_some, Option.map_none] at h
        injection h with hbv
        have hplusb : '+' ∈ b.data := hdecomp ▸ List.mem_append_right _ (List.mem_cons_self ..)
        have hdata2 : (b ++ "-0.dev").data
            = corePre ++ '+' :: (post ++ ['-', '0', '.', 'd', 'e', 'v']) := by
          rw [hdata, hdecomp, List.append_assoc, List.cons_append]
        have hsp2 : splitFirst '+' (b ++ "-0.dev").data
            = (corePre, some (post ++ ['-', '0', '.', 'd', 'e', 'v'])) := by
          rw [hdata2]
          exact splitFirst_append '+' corePre _ hpluspre
        have hb2 := dotIdentsOk_append_dev post hbb
        refine ⟨⟨ma, mi, pa, none,
          some (String.mk (post ++ ['-', '0', '.', 'd', 'e', 'v']))⟩, ?_, ?_, ?_, ?_,
          fun hcon => absurd hplusb hcon⟩
        · simp only [parseSemver, hsp2, hb2, splitFirst_not_mem '-' corePre hndcp, hpc,
            if_true]
          rfl
        · rw [← hbv]
        · rw [← hbv]
        · rw [← hbv]

/-- The parse of `withDefaultPrerelease b` keeps the numeric triple of a
parse of `b`. -/
theorem parseSemver_withDefault (b : String) (bv : SemVer)
    (h : parseSemver b = some bv) :
    ∃ bv', parseSemver (withDefaultPrerelease b) = some bv' ∧ bv'.major = bv.major ∧
      bv'.minor = bv.minor ∧ bv'.patch = bv.patch := by
  by_cases hd : '-' ∈ b.data
  · exact ⟨bv, by rw [withDefaultPrerelease, if_pos hd]; exact h, rfl, rfl, rfl⟩
  · obtain ⟨bv', h1, h2, h3, h4, _⟩ := parseSemver_suffix b bv h hd
    exact ⟨bv', by rw [withDefaultPrerelease, if_neg hd]; exact h1, h2, h3, h4⟩

theorem tripleLtB_mk_iff (a1 a2 a3 b1 b2 b3 : Nat) :
    tripleLtB (a1, a2, a3) (b1, b2, b3) = true ↔
      (a1 < b1 ∨ (a1 = b1 ∧ (a2 < b2 ∨ (a2 = b2 ∧ a3 < b3)))) := by
  rw [tripleLtB]
  split_ifs <;> simp_all

/-! ## C2 -/

/-- C2: for a base version and a latest tag that both parse as SemVer2 and a
nonzero commits-since-tag count, `_check_base_version` fails with the
`is not greater` error naming both versions unless the base triple is
strictly greater than the tag triple, or the triples are equal and the tag
has a prerelease; it rejects `1.2.3-0.dev` against tag `1.2.3` and accepts
`1.2.4-0.dev`; with a zero count the ordering check is skipped, and with a
non-SemVer2 tag the check is skipped (after a warning). -/
theorem C2_base_version_ordering :
    (∀ (b t : String) (count : Nat) (bv tv : SemVer),
      parseSemver b = some bv → parseSemver t = some tv → count ≠ 0 →
      _check_base_version b (some t, count)
        = if tripleLtB (tv.major, tv.minor, tv.patch) (bv.major, bv.minor, bv.patch) = true
              ∨ ((bv.major, bv.minor, bv.patch) = (tv.major, tv.minor, tv.patch)
                  ∧ tv.prerelease.isSome = true) then
            .ok (withDefaultPrerelease b)
          else .error (sortErrorMsg (withDefaultPrerelease b) t)) ∧
    (∀ (b t : String) (bv : SemVer), parseSemver b = some bv →
      _check_base_version b (some t, 0) = .ok (withDefaultPrerelease b)) ∧
    (∀ (b t : String) (count : Nat) (bv : SemVer), parseSemver b = some bv →
      parseSemver (String.mk (t.data.dropWhile (· = 'v'))) = none →
      _check_base_version b (some t, count) = .ok (withDefaultPrerelease b)) ∧
    _check_base_version "1.2.3-0.dev" (some "1.2.3", 10)
      = .error (sortErrorMsg "1.2.3-0.dev" "1.2.3") ∧
    _check_base_version "1.2.4-0.dev" (some "1.2.3", 10) = .ok "1.2.4-0.dev" := by
  refine ⟨?_, ?_, ?_, rfl, rfl⟩
  · intro b t count bv tv hb ht hcount
    obtain ⟨bv', hp', e1, e2, e3⟩ := parseSemver_withDefault b bv hb
    have hlt := lstrip_v_of_parse t tv ht
    have htne : t ≠ "" := parse_ne_empty t tv ht
    have hmk : String.mk (t.data.dropWhile (· = 'v')) = t := by
      rw [hlt]
    simp only [_check_base_version, hp']
    rw [if_pos ⟨htne, hcount⟩]
    simp only [hmk, ht]
    rw [e1, e2, e3]
    by_cases hC : tripleLtB (tv.major, tv.minor, tv.patch)
          (bv.major, bv.minor, bv.patch) = true
        ∨ ((bv.major, bv.minor, bv.patch) = (tv.major, tv.minor, tv.patch)
            ∧ tv.prerelease.isSome = true)
    · rw [if_pos hC]
      rcases hC with hC | ⟨hEq, hPre⟩
      · have h1 : ¬ tripleLtB (bv.major, bv.minor, bv.patch)
            (tv.major, tv.minor, tv.patch) = true := by
          rw [tripleLtB_mk_iff] at hC ⊢
          omega
        have h2 : ¬ ((bv.major, bv.minor, bv.patch) = (tv.major, tv.minor, tv.patch)) := by
          rw [tripleLtB_mk_iff] at hC
          intro he
          rw [Prod.mk.injEq, Prod.mk.injEq] at he
          omega
        rw [if_neg h1, if_neg h2]
      · have h1 : ¬ tripleLtB (bv.major, bv.minor, bv.patch)
            (tv.major, tv.minor, tv.patch) = true := by
          rw [tripleLtB_mk_iff]
          rw [Prod.mk.injEq, Prod.mk.injEq] at hEq
          omega
        rw [if_neg h1, if_pos hEq, if_pos hPre]
    · rw [if_neg hC]
      obtain ⟨hA, hB⟩ := not_or.mp hC
      by_cases h1 : tripleLtB (bv.major, bv.minor, bv.patch)
          (tv.major, tv.minor, tv.patch) = true
      · rw [if_pos h1]
      · rw [if_neg h1]
        by_cases h2 : (bv.major, bv.minor, bv.patch) = (tv.major, tv.minor, tv.patch)
        · rw [if_pos h2]
          have h3 : ¬ tv.prerelease.isSome = true := fun hp => hB ⟨h2, hp⟩
          rw [if_neg h3]
        · exfalso
          rw [tripleLtB_mk_iff] at hA h1
          rw [Prod.mk.injEq, Prod.mk.injEq] at h2
          omega
  · intro b t bv hb
    obtain ⟨bv', hp', _, _, _⟩ := parseSemver_withDefault b bv hb
    simp only [_check_base_version, hp']
    rw [if_neg (fun h => h.2 rfl)]
  · intro b t count bv hb hinv
    obtain ⟨bv', hp', _, _, _⟩ := parseSemver_withDefault b bv hb
    simp only [_check_base_version, hp']
    by_cases hcond : t ≠ "" ∧ count ≠ 0
    · rw [if_pos hcond]
      simp only [hinv]
    · rw [if_neg hcond]

/-- Witness for C2: the accept example, via the general ordering clause. -/
theorem C2_base_version_ordering_witness :
    _check_base_version "1.2.4-0.dev" (some "1.2.3", 10)
      = Except.ok (withDefaultPrerelease "1.2.4-0.dev") := by
  have h := C2_base_version_ordering.1 "1.2.4-0.dev" "1.2.3" 10
    ⟨1, 2, 4, some "0.dev", none⟩ ⟨1, 2, 3, none, none⟩ (by decide) (by decide)
    (by decide)
  rw [if_pos (Or.inl (by decide))] at h
  exact h

/-! ## C9: amended claim -/

/-- C9 (amended): a base version without a `-` gets `-0.dev` appended before
validation, and the possibly-suffixed string must match the SemVer2 grammar
or the validator fails with a `ValueError` naming it; a successfully
validated base version is the possibly-suffixed string, which parses, and it
has a prerelease whenever the configured value carries no `+` build
metadata. -/
theorem C9_default_prerelease (b : String) (tac : Option String × Nat) :
    (parseSemver (withDefaultPrerelease b) = none →
      _check_base_version b tac = .error (invalidBaseMsg (withDefaultPrerelease b))) ∧
    (∀ r, _check_base_version b tac = .ok r →
      r = withDefaultPrerelease b ∧
      ∃ sv, parseSemver (withDefaultPrerelease b) = some sv ∧
        ('+' ∉ b.data → sv.prerelease.isSome = true)) ∧
    ('-' ∉ b.data → withDefaultPrerelease b = b ++ "-0.dev") := by
  refine ⟨?_, ?_, fun hd => by rw [withDefaultPrerelease, if_neg hd]⟩
  · intro hnone
    simp only [_check_base_version, hnone]
  · intro r hok
    cases hp : parseSemver (withDefaultPrerelease b) with
    | none =>
      simp only [_check_base_version, hp] at hok
      exact Except.noConfusion hok
    | some sv =>
      have hpre : '+' ∉ b.data → sv.prerelease.isSome = true := by
        intro hplus
        have hdash : '-' ∈ (withDefaultPrerelease b).data := by
          by_cases hd : '-' ∈ b.data
          · rw [withDefaultPrerelease, if_pos hd]; exact hd
          · rw [withDefaultPrerelease, if_neg hd, String.data_append]
            exact List.mem_append_right _ (by decide)
        have hplus2 : '+' ∉ (withDefaultPrerelease b).data := by
          by_cases hd : '-' ∈ b.data
          · rw [withDefaultPrerelease, if_pos hd]; exact hplus
          · rw [withDefaultPrerelease, if_neg hd, String.data_append]
            intro hm
            rcases List.mem_append.mp hm with e | e
            · exact hplus e
            · exact absurd e (by decide)
        exact parse_prerelease_of_dash _ sv hp hplus2 hdash
      have hr : r = withDefaultPrerelease b := by
        simp only [_check_base_version, hp] at hok
        rcases tac with ⟨tagOpt, count⟩
        cases tagOpt with
        | none => injection hok with h1; exact h1.symm
        | some t =>
          repeat' split at hok
          all_goals
            first
              | exact Except.noConfusion hok
              | (injection hok with h1; exact h1.symm)
      exact ⟨hr, sv, rfl, hpre⟩

/-- Witness for C9: an invalid base version fails with the naming error. -/
theorem C9_default_prerelease_witness :
    _check_base_version "x.y" (none, 0)
      = Except.error (invalidBaseMsg (withDefaultPrerelease "x.y")) :=
  (C9_default_prerelease "x.y" (none, 0)).1 (by decide)

/-! ## Lemmas for `_trim_version_suffix` -/

theorem takeWhile_all_append (p : Char → Bool) (l : List Char) (x : Char) (r : List Char)
    (hl : ∀ c ∈ l, p c = true) (hx : p x = false) :
    (l ++ x :: r).takeWhile p = l ∧ (l ++ x :: r).dropWhile p = x :: r := by
  induction l with
  | nil => simp [List.takeWhile_cons, List.dropWhile_cons, hx]
  | cons a l' ih =>
    have ha : p a = true := hl a (List.mem_cons_self ..)
    obtain ⟨ih1, ih2⟩ := ih (fun c hc => hl c (List.mem_cons_of_mem a hc))
    simp [List.takeWhile_cons, List.dropWhile_cons, ha, ih1, ih2]

theorem takeWhile_of_all (p : Char → Bool) (l : List Char)
    (hl : ∀ c ∈ l, p c = true) :
    l.takeWhile p = l ∧ l.dropWhile p = [] := by
  induction l with
  | nil => simp
  | cons a l' ih =>
    have ha : p a = true := hl a (List.mem_cons_self ..)
    obtain ⟨ih1, ih2⟩ := ih (fun c hc => hl c (List.mem_cons_of_mem a hc))
    simp [List.takeWhile_cons, List.dropWhile_cons, ha, ih1, ih2]

theorem digitChar_isDigit (m : Nat) (h : m < 10) : (Nat.digitChar m).isDigit = true := by
  interval_cases m <;> decide

theorem toDigitsCore_digits (fuel : Nat) : ∀ (n : Nat) (ds : List Char),
    (∀ c ∈ ds, c.isDigit = true) →
    ∀ c ∈ Nat.toDigitsCore 10 fuel n ds, c.isDigit = true := by
  induction fuel with
  | zero =>
    intro n ds hds
    simpa [Nat.toDigitsCore] using hds
  | succ fuel ih =>
    intro n ds hds
    have hd : (Nat.digitChar (n % 10)).isDigit = true :=
      digitChar_isDigit _ (Nat.mod_lt _ (by norm_num))
    have hcons : ∀ c ∈ Nat.digitChar (n % 10) :: ds, c.isDigit = true := by
      intro c hc
      rcases List.mem_cons.mp hc with e | e
      · rw [e]; exact hd
      · exact hds c e
    simp only [Nat.toDigitsCore]
    by_cases hz : n / 10 = 0
    · simp only [hz, if_pos rfl]
      exact hcons
    · simp only [if_neg hz]
      exact ih (n / 10) (Nat.digitChar (n % 10) :: ds) hcons

theorem toDigitsCore_append (fuel : Nat) : ∀ (n : Nat) (ds : List Char),
    ∃ l, Nat.toDigitsCore 10 fuel n ds = l ++ ds := by
  induction fuel with
  | zero => exact fun n ds => ⟨[], by simp [Nat.toDigitsCore]⟩
  | succ fuel ih =>
    intro n ds
    simp only [Nat.toDigitsCore]
    by_cases hz : n / 10 = 0
    · exact ⟨[Nat.digitChar (n % 10)], by simp [hz]⟩
    · obtain ⟨l, hl⟩ := ih (n / 10) (Nat.digitChar (n % 10) :: ds)
      refine ⟨l ++ [Nat.digitChar (n % 10)], ?_⟩
      simp only [if_neg hz, hl, List.append_assoc, List.singleton_append]

theorem toString_nat_digits (n : Nat) :
    (toString n).data ≠ [] ∧ ∀ c ∈ (toString n).data, c.isDigit = true := by
  have hdata : (toString n).data = Nat.toDigitsCore 10 (n + 1) n [] := rfl
  rw [hdata]
  constructor
  · simp only [Nat.toDigitsCore]
    by_cases hz : n / 10 = 0
    · simp [hz]
    · simp only [if_neg hz]
      obtain ⟨l, hl⟩ := toDigitsCore_append n (n / 10) (Nat.digitChar (n % 10) :: [])
      rw [hl]
      simp
  · exact toDigitsCore_digits (n + 1) n [] (by simp)

theorem isDigit_ne_dot (c : Char) (h : c.isDigit = true) : ¬ c = '.' := by
  intro e; rw [e] at h; exact absurd h (by decide)

theorem isDigit_ne_g (c : Char) (h : c.isDigit = true) : ¬ c = 'g' := by
  intro e; rw [e] at h; exact absurd h (by decide)

theorem isHex_ne_dot (c : Char) (h : isHexLower c = true) : ¬ c = '.' := by
  intro e; rw [e] at h; exact absurd h (by decide)

theorem suffixMatch_start (l : List Char) (h : suffixMatch l = true) :
    ∃ r, l = '.' :: 'g' :: r := by
  cases l with
  | nil => simp [suffixMatch] at h
  | cons a t =>
    cases t with
    | nil => simp [suffixMatch] at h
    | cons b r =>
      rw [suffixMatch] at h
      simp only [Bool.and_eq_true, decide_eq_true_eq] at h
      obtain ⟨⟨h1, h2⟩, _⟩ := h
      rw [h1, h2]
      exact ⟨r, rfl⟩

theorem noDotG_tail (a : Char) (t : List Char) (h : noDotG (a :: t) = true) :
    noDotG t = true := by
  cases t with
  | nil => simp [noDotG]
  | cons b r =>
    rw [noDotG, Bool.and_eq_true] at h
    exact h.2

theorem noDotG_drop_suffixMatch (l : List Char) (h : noDotG l = true) :
    ∀ j, suffixMatch (l.drop j) = false := by
  induction l with
  | nil => intro j; rw [List.drop_nil]; rfl
  | cons a t ih =>
    intro j
    cases j with
    | zero =>
      rw [List.drop_zero]
      cases hm : suffixMatch (a :: t) with
      | false => rfl
      | true =>
        obtain ⟨r, hr⟩ := suffixMatch_start _ hm
        injection hr with h1 h2
        subst h1
        subst h2
        rw [noDotG] at h
        simp at h
    | succ j' =>
      rw [List.drop_succ_cons]
      exact ih (noDotG_tail a t h) j'

theorem noDotG_append (l rest : List Char) (hl : ∀ c ∈ l, ¬ c = '.')
    (hr : noDotG rest = true) : noDotG (l ++ rest) = true := by
  induction l with
  | nil => simpa
  | cons a l' ih =>
    have ha := hl a (List.mem_cons_self ..)
    have ih' := ih (fun c hc => hl c (List.mem_cons_of_mem a hc))
    rw [List.cons_append]
    cases hlr : l' ++ rest with
    | nil => simp [noDotG]
    | cons b t =>
      rw [noDotG, Bool.and_eq_true]
      refine ⟨by simp [ha], ?_⟩
      rw [← hlr]
      exact ih'

theorem noDotG_of_no_dot (l : List Char) (hl : ∀ c ∈ l, ¬ c = '.') :
    noDotG l = true := by
  have h := noDotG_append l [] hl rfl
  simpa using h

theorem noDotG_suffix_tail (ds hx : List Char) (hds : ds ≠ [])
    (hdsd : ∀ c ∈ ds, c.isDigit = true) (hhex : ∀ c ∈ hx, isHexLower c = true) :
    noDotG ('g' :: 'i' :: 't' :: '.' :: (ds ++ '.' :: 'h' :: hx)) = true := by
  obtain ⟨d0, ds', rfl⟩ := List.exists_cons_of_ne_nil hds
  have hd0 := hdsd d0 (List.mem_cons_self ..)
  rw [List.cons_append, noDotG, noDotG, noDotG, noDotG]
  simp only [Bool.and_eq_true]
  refine ⟨by decide, by decide, by decide, by simp [isDigit_ne_g d0 hd0], ?_⟩
  have hb : noDotG ('.' :: 'h' :: hx) = true := by
    rw [noDotG, Bool.and_eq_true]
    refine ⟨by decide, ?_⟩
    cases hx with
    | nil => rfl
    | cons c0 hx' =>
      rw [noDotG, Bool.and_eq_true]
      refine ⟨by simp, ?_⟩
      exact noDotG_of_no_dot _ (fun c hc => isHex_ne_dot c (hhex c hc))
  have := noDotG_append (d0 :: ds') ('.' :: 'h' :: hx)
    (fun c hc => isDigit_ne_dot c (hdsd c hc)) hb
  rw [List.cons_append] at this
  exact this

theorem suffixMatch_suffix (ds hx : List Char) (hds : ds ≠ [])
    (hdsd : ∀ c ∈ ds, c.isDigit = true)
    (hhx : hx ≠ []) (hhex : ∀ c ∈ hx, isHexLower c = true) :
    suffixMatch ('.' :: 'g' :: 'i' :: 't' :: '.' :: (ds ++ '.' :: 'h' :: hx)) = true := by
  obtain ⟨ht, hd⟩ := takeWhile_all_append Char.isDigit ds '.' ('h' :: hx) hdsd (by decide)
  obtain ⟨ht2, hd2⟩ := takeWhile_of_all isHexLower hx hhex
  obtain ⟨d0, ds', rfl⟩ := List.exists_cons_of_ne_nil hds
  obtain ⟨c0, hx', rfl⟩ := List.exists_cons_of_ne_nil hhx
  rw [suffixMatch, suffixMatch2, suffixTail]
  simp only [ht, hd, ht2, hd2]
  simp

theorem drop_append_length_add (l1 l2 : List Char) (j : Nat) :
    (l1 ++ l2).drop (l1.length + j) = l2.drop j := by
  induction l1 with
  | nil => simp
  | cons a l ih =>
    rw [List.cons_append, List.length_cons, Nat.succ_add, List.drop_succ_cons]
    exact ih

theorem pyMatchAt_above (pre ds hx : List Char) (hds : ds ≠ [])
    (hdsd : ∀ c ∈ ds, c.isDigit = true) (hhex : ∀ c ∈ hx, isHexLower c = true) :
    ∀ i, pre.length < i →
      pyMatchAt (pre ++ '.' :: 'g' :: 'i' :: 't' :: '.' :: (ds ++ '.' :: 'h' :: hx)) i
        = false := by
  intro i hi
  rw [pyMatchAt]
  have hdrop : (pre ++ '.' :: 'g' :: 'i' :: 't' :: '.' :: (ds ++ '.' :: 'h' :: hx)).drop i
      = ('.' :: 'g' :: 'i' :: 't' :: '.' :: (ds ++ '.' :: 'h' :: hx)).drop (i - pre.length) := by
    conv_lhs => rw [show i = pre.length + (i - pre.length) by omega]
    exact drop_append_length_add _ _ _
  have hj : ∃ j', i - pre.length = j' + 1 := ⟨i - pre.length - 1, by omega⟩
  obtain ⟨j', hj'⟩ := hj
  have hsm : suffixMatch
      ((pre ++ '.' :: 'g' :: 'i' :: 't' :: '.' :: (ds ++ '.' :: 'h' :: hx)).drop i)
      = false := by
    rw [hdrop, hj', List.drop_succ_cons]
    exact noDotG_drop_suffixMatch _ (noDotG_suffix_tail ds hx hds hdsd hhex) j'
  rw [hsm]
  simp

theorem trimFindStart_eq (cs : List Char) (k : Nat)
    (hP : pyMatchAt cs k = true) (habove : ∀ i, k < i → pyMatchAt cs i = false) :
    ∀ m, k ≤ m → trimFindStart cs m = some k := by
  intro m
  induction m with
  | zero =>
    intro hk
    rw [Nat.le_zero] at hk
    subst hk
    rw [trimFindStart, if_pos hP]
  | succ m ih =>
    intro hk
    by_cases he : k = m + 1
    · subst he
      rw [trimFindStart, if_pos hP]
    · have hlt : k ≤ m := by omega
      rw [trimFindStart, if_neg (by simp [habove (m + 1) (by omega)])]
      exact ih hlt

/-- The trim of a string of the shape `base ++ ".git." ++ digits ++ ".h" ++ hex`
recovers `base` exactly, provided `base` has no newline, the digits are
nonempty and the hex part is nonempty lowercase hex. -/
theorem trim_of_gen (base commit : String) (n : Nat)
    (hnl : ∀ c ∈ base.data, ¬ c = '\n')
    (hc : commit.data ≠ []) (hhex : ∀ c ∈ commit.data, isHexLower c = true) :
    _trim_version_suffix (base ++ ".git." ++ toString n ++ ".h" ++ commit) = base := by
  obtain ⟨hne, hdig⟩ := toString_nat_digits n
  have hdata : (base ++ ".git." ++ toString n ++ ".h" ++ commit).data
      = base.data ++ '.' :: 'g' :: 'i' :: 't' :: '.' ::
          ((toString n).data ++ '.' :: 'h' :: commit.data) := by
    simp only [String.data_append, List.append_assoc]
    rfl
  have hP : pyMatchAt (base.data ++ '.' :: 'g' :: 'i' :: 't' :: '.' ::
      ((toString n).data ++ '.' :: 'h' :: commit.data)) base.data.length = true := by
    rw [pyMatchAt, List.take_left, List.drop_left]
    rw [suffixMatch_suffix _ _ hne hdig hc hhex]
    simp only [Bool.and_true, List.all_eq_true]
    intro c hcm
    simpa using hnl c hcm
  have hfind := trimFindStart_eq _ base.data.length hP
    (pyMatchAt_above base.data _ _ hne hdig hhex)
    (base.data ++ '.' :: 'g' :: 'i' :: 't' :: '.' ::
      ((toString n).data ++ '.' :: 'h' :: commit.data)).length
    (by simp)
  rw [_trim_version_suffix, hdata, hfind]
  show String.mk ((base.data ++ '.' :: 'g' :: 'i' :: 't' :: '.' ::
      ((toString n).data ++ '.' :: 'h' :: commit.data)).take base.data.length) = base
  rw [List.take_left]

/-! ## C4: amended claim -/

/-- C4 (amended): for every tag that already contains a `-` and no newline,
every `n > 0` and every nonempty lowercase-hex commit string, trimming the
generated identifier recovers the tag exactly; for a bare release tag the
trim recovers `tag ++ "-0.dev"` instead (the counterexample shows the
original round-trip claim fails there). -/
theorem C4_trim_round_trip (tag commit : String) (n : Nat) (long : Bool)
    (hnl : ∀ c ∈ tag.data, ¬ c = '\n') (hn : 0 < n)
    (hc : commit.data ≠ []) (hhex : ∀ c ∈ commit.data, isHexLower c = true) :
    ('-' ∈ tag.data →
      _trim_version_suffix (_get_identifier_from_parts tag n commit long) = tag) ∧
    ('-' ∉ tag.data →
      _trim_version_suffix (_get_identifier_from_parts tag n commit long)
        = tag ++ "-0.dev") := by
  have hcond : (decide (n > 0) || long) = true := by simp [hn]
  constructor
  · intro hd
    have hgen : _get_identifier_from_parts tag n commit long
        = tag ++ ".git." ++ toString n ++ ".h" ++ commit := by
      rw [_get_identifier_from_parts]
      simp only [hcond, if_pos, if_true]
      rw [if_pos hd]
      simp only [String.append_assoc]
      rfl
    rw [hgen]
    exact trim_of_gen tag commit n hnl hc hhex
  · intro hd
    have hgen : _get_identifier_from_parts tag n commit long
        = (tag ++ "-0.dev") ++ ".git." ++ toString n ++ ".h" ++ commit := by
      rw [_get_identifier_from_parts]
      simp only [hcond, if_pos, if_true]
      rw [if_neg hd]
      simp only [String.append_assoc]
      rfl
    rw [hgen]
    apply trim_of_gen
    · intro c hcm
      rw [String.data_append] at hcm
      rcases List.mem_append.mp hcm with e | e
      · exact hnl c e
      · intro he
        subst he
        exact absurd e (by decide)
    · exact hc
    · exact hhex

/-- Witness for C4 at a prerelease tag: the round trip recovers the tag. -/
theorem C4_trim_round_trip_witness :
    _trim_version_suffix (_get_identifier_from_parts "1.2.3-alpha.1" 5 "abc" false)
      = "1.2.3-alpha.1" :=
  (C4_trim_round_trip "1.2.3-alpha.1" "abc" 5 false (by decide) (by decide)
    (by decide) (by decide)).1 (by decide)
